import Mathlib

/-!
Verification development for the gazetteer core (`src/tree.rs`, `src/util.rs`).

Strings are modelled as `List Char`.  Offsets produced by the tokenizer are
byte offsets in the Rust source; the model tracks them faithfully by
accumulating `Char.utf8Size`, so they agree with the source for every input
(and coincide with character offsets on single-byte inputs).  The Rust
`to_lowercase` is modelled with `Char.toLower` (exact on ASCII, which all
concrete inputs below use).  `HashSet<Match>` is modelled as a duplicate-free
insertion-ordered list (structural equality, as derived `PartialEq`/`Eq` on
`Match`; the `Hash` impl over `match_uri` only is consistent with that
equality and does not change set membership).  `HashMap<String, _>` is
modelled as an association list: `get_mut` + in-place mutation becomes
`setChild`, `insert`/`try_insert` on an absent key becomes appending.
-/

abbrev Str := List Char

def strL (s : String) : Str := s.toList

/-- Total UTF-8 byte length of a string, Rust's `str::len`. -/
def utf8Len (s : Str) : Nat := (s.map Char.utf8Size).sum

/-- Lowercasing of a string (Rust `str::to_lowercase`, modelled per char). -/
def toLowerStr (s : Str) : Str := s.map Char.toLower

/-- `MatchType` from `src/tree.rs`. -/
inductive MatchType where
  | None
  | Full
  | Abbreviated
  | NGram
deriving DecidableEq

/-- `Match` from `src/tree.rs`: equality is structural over all three fields
(derived `PartialEq`/`Eq` in the source). -/
structure Match where
  match_type : MatchType
  match_string : Str
  match_uri : Str
deriving DecidableEq

/-- `Match::full` from `src/tree.rs`. -/
def Match.full (match_string match_uri : Str) : Match :=
  { match_type := MatchType.Full, match_string := match_string, match_uri := match_uri }

/-- `ResultSelection` from `src/tree.rs`: the three selection policies of the
source are `All`, `Last` and `Longest`. -/
inductive ResultSelection where
  | All
  | Last
  | Longest
deriving DecidableEq

/-- `SPLIT_PATTERN` from `src/util.rs`. -/
def SPLIT_PATTERN : List Char := [' ', '.', ',', ':', ';', '-', '_', '\"', '(', ')']

/-- `_push_slice` from `src/util.rs`: push the slice and the offset pair
`(last, idx + 1)` when the slice is longer than one byte, or is a single byte
that is not a split character.  Note the `idx + 1`: the recorded end is one
past the byte index that delimits the slice. -/
def _push_slice (slices : List Str) (offsets : List (Nat × Nat)) (slice : Str)
    (last idx : Nat) : List Str × List (Nat × Nat) :=
  if 1 < utf8Len slice ∨ (utf8Len slice = 1 ∧ ¬ SPLIT_PATTERN.contains (slice.headD ' ')) then
    (slices ++ [slice], offsets ++ [(last, idx + 1)])
  else
    (slices, offsets)

/-- Walker for `split_with_indices`: `pend` holds the characters accumulated
since byte position `last`, `pos` is the byte position of the next character.
Mirrors the loop over `s.match_indices(SPLIT_PATTERN)` (every split character
is ASCII, hence one byte) followed by the final `if last < s.len()` push. -/
def swiAux (acc : List Str × List (Nat × Nat)) (pend : Str) (last pos : Nat) :
    List Char → List Str × List (Nat × Nat)
  | [] => if last < pos then _push_slice acc.1 acc.2 pend last pos else acc
  | c :: rest =>
    if SPLIT_PATTERN.contains c then
      swiAux (_push_slice acc.1 acc.2 pend last pos) [] (pos + 1) (pos + 1) rest
    else
      swiAux acc (pend ++ [c]) last (pos + Char.utf8Size c) rest

/-- `split_with_indices` from `src/util.rs`. -/
def split_with_indices (s : Str) : List Str × List (Nat × Nat) :=
  swiAux ([], []) [] 0 0 s

/-- `HashMapSearchTree` from `src/tree.rs`; the `HashMap` of children is an
association list with unique keys. -/
inductive HashMapSearchTree where
  | mk : List Match → List (Str × HashMapSearchTree) → HashMapSearchTree

namespace HashMapSearchTree

def matchSet : HashMapSearchTree → List Match
  | mk m _ => m

def children : HashMapSearchTree → List (Str × HashMapSearchTree)
  | mk _ c => c

/-- `HashMapSearchTree::default`. -/
def default : HashMapSearchTree := mk [] []

/-- `HashMapSearchTree::from`: the initial match set of a node created for the
final token of an inserted key.  Note that the source hardcodes
`Match::full` here, regardless of the `match_type` passed to `insert`. -/
def from' (match_string match_uri : Str) : HashMapSearchTree :=
  mk [Match.full match_string match_uri] []

end HashMapSearchTree

/-- `HashMap::get` on the children map. -/
def getChild : List (Str × HashMapSearchTree) → Str → Option HashMapSearchTree
  | [], _ => none
  | (k, c) :: rest, key => if k = key then some c else getChild rest key

/-- In-place mutation of the child found by `get_mut`: replace the tree stored
at an existing key. -/
def setChild : List (Str × HashMapSearchTree) → Str → HashMapSearchTree →
    List (Str × HashMapSearchTree)
  | [], _, _ => []
  | (k, c) :: rest, key, c' =>
    if k = key then (k, c') :: rest else (k, c) :: setChild rest key c'

/-- `HashSet::insert`: a no-op when an equal element is present. -/
def hsInsert (s : List Match) (m : Match) : List Match :=
  if m ∈ s then s else s ++ [m]

namespace HashMapSearchTree

/-- `HashMapSearchTree::insert` from `src/tree.rs`.  The source pops the front
token, lowercases it (twice — `to_lowercase` is idempotent, modelled once) and
either descends into an existing child or creates the missing nodes
(`children.insert` / `try_insert`, i.e. insertion at an absent key).  An empty
token list makes the source panic on `pop_front().unwrap()`; it is never
reached by the callers, which always pass non-empty token sequences. -/
def insert (t : HashMapSearchTree) : List Str → Str → Str → MatchType → HashMapSearchTree
  | [], _, _, _ => t
  | v :: rest, match_string, match_uri, match_type =>
    let value := toLowerStr v
    match getChild t.children value with
    | some child =>
      if rest.isEmpty then
        mk t.matchSet (setChild t.children value
          (mk (hsInsert child.matchSet
                { match_type := match_type, match_string := match_string,
                  match_uri := match_uri })
              child.children))
      else
        mk t.matchSet (setChild t.children value
          (child.insert rest match_string match_uri match_type))
    | none =>
      if rest.isEmpty then
        mk t.matchSet (t.children ++ [(value, from' match_string match_uri)])
      else
        mk t.matchSet (t.children ++
          [(value, (default.insert rest match_string match_uri match_type))])

/-- `HashMapSearchTree::traverse_internal` from `src/tree.rs`.  An empty
window makes the source panic on `pop_front().expect("")`; `search` only ever
passes windows of the (positive) window width. -/
def traverse_internal (t : HashMapSearchTree) :
    List Str → List Str → List (List Str × List Match) → List (List Str × List Match)
  | [], _, results => results
  | v :: rest, matched_string_buffer, results =>
    match getChild t.children (toLowerStr v) with
    | some child =>
      let matched_string_buffer := matched_string_buffer ++ [v]
      let results :=
        if child.matchSet.isEmpty then results
        else results ++ [(matched_string_buffer, child.matchSet)]
      if rest.isEmpty then results
      else child.traverse_internal rest matched_string_buffer results
    | none => results

/-- `SearchTree::traverse` from `src/tree.rs`. -/
def traverse (t : HashMapSearchTree) (values : List Str) :
    Except Str (List (List Str × List Match)) :=
  let vec := t.traverse_internal values [] []
  if 0 < vec.length then Except.ok vec else Except.error (strL "No matches found")

end HashMapSearchTree

/-- Output record of `search`: the Rust tuple
`(String, HashSet<Match>, usize, usize)`. -/
structure Span where
  string : Str
  matchSet : List Match
  start : Nat
  stop : Nat
deriving DecidableEq

/-- `Vec::join(" ")` on a list of tokens. -/
def joinSpace (parts : List Str) : Str := List.intercalate [' '] parts

/-- The per-window emission of `SearchTree::search` (the
`match result_selection` block): `All` emits one span per candidate, `Last`
emits the last candidate, `Longest` folds for the first candidate of
strictly maximal prefix length starting from `(Vec::new(), &HashSet::new())`. -/
def selectResults (sel : ResultSelection) (results : List (List Str × List Match))
    (os : List (Nat × Nat)) (start : Nat) : List Span :=
  match sel with
  | ResultSelection.All =>
    results.map (fun r =>
      { string := joinSpace r.1, matchSet := r.2, start := start,
        stop := (os.getD (r.1.length - 1) (0, 0)).2 })
  | ResultSelection.Last =>
    let r := results.getLastD ([], [])
    [{ string := joinSpace r.1, matchSet := r.2, start := start,
       stop := (os.getD (r.1.length - 1) (0, 0)).2 }]
  | ResultSelection.Longest =>
    let r := results.foldl (fun acc c => if acc.1.length < c.1.length then c else acc) ([], [])
    [{ string := joinSpace r.1, matchSet := r.2, start := start,
       stop := (os.getD (r.1.length - 1) (0, 0)).2 }]

/-- Helper for `dedupByEnd`: `prev` is the last retained span; a span whose
end offset equals the retained one is dropped, otherwise it is retained and
becomes the new comparator. -/
def dedupByEndAux (prev : Span) : List Span → List Span
  | [] => []
  | b :: rest =>
    if prev.stop = b.stop then dedupByEndAux prev rest
    else b :: dedupByEndAux b rest

/-- `Vec::dedup_by_key(|el| el.3)`: remove all but the first of consecutive
spans with equal end offset (each span is compared against the last retained
one). -/
def dedupByEnd : List Span → List Span
  | [] => []
  | a :: rest => a :: dedupByEndAux a rest

namespace HashMapSearchTree

/-- `SearchTree::search` from `src/tree.rs`.  Defaults: `max_len = 5`,
`result_selection = Longest`.  Tokens and offsets are padded with `max_len`
empty entries; the windows of width `W` over a list of length `n ≥ W` are the
`n - W + 1` contiguous slices.  A window width of `0` is rejected at run time
(the window iterator computes its size from `window_size - 1`, which
underflows; with overflow checks this is a panic), modelled as `none`. -/
def search (t : HashMapSearchTree) (text : Str) (max_len : Option Nat)
    (result_selection : Option ResultSelection) : Option (List Span) :=
  let sel := result_selection.getD ResultSelection.Longest
  let W := max_len.getD 5
  let slices := (split_with_indices text).1 ++ List.replicate W []
  let offsets := (split_with_indices text).2 ++ List.replicate W (0, 0)
  if W = 0 then
    none
  else
    let spans := (List.range (slices.length - W + 1)).flatMap (fun p =>
      let ws := (slices.drop p).take W
      let os := (offsets.drop p).take W
      match t.traverse ws with
      | Except.error _ => []
      | Except.ok results =>
        if results.isEmpty then []
        else selectResults sel results os ((os.headD (0, 0)).1))
    some (dedupByEnd spans)

/-- `HashMapSearchTree::load_lines` from `src/tree.rs`: each line is
re-tokenized with `split_with_indices` and inserted. -/
def load_lines (t : HashMapSearchTree) (lines : List (Str × Str × MatchType)) :
    HashMapSearchTree :=
  lines.foldl (fun acc l => acc.insert (split_with_indices l.1).1 l.1 l.2.1 l.2.2) t

end HashMapSearchTree

/-- Padding symbol of the `ngrams` crate: `Ngrams::pad` surrounds the token
sequence of an n-gram iterator with `\u{2060}` (word joiner) symbols, `n - 1`
on each side. -/
def NGRAM_PAD : Str := [Char.ofNat 8288]

/-- Contiguous windows of width 2 (the `ngrams(2)` iterator over a padded
sequence yields exactly these). -/
def windows2 : List Str → List (List Str)
  | a :: b :: rest => [a, b] :: windows2 (b :: rest)
  | _ => []

/-- `SearchTree::generate_ngrams` from `src/tree.rs`: for every line whose
`split_with_indices` tokenization has more than 2 tokens, emit every padded
bigram all of whose parts are longer than 2 bytes (the pad symbol itself is
3 bytes long, so it passes this check), joined with a space, as an `NGram`
line. -/
def generate_ngrams (lines : List (Str × Str × MatchType)) : List (Str × Str × MatchType) :=
  (lines.filter (fun l => 2 < (split_with_indices l.1).1.length)).flatMap (fun l =>
    (windows2 (NGRAM_PAD :: (split_with_indices l.1).1 ++ [NGRAM_PAD])).filterMap (fun ngram =>
      if ngram.all (fun el => 2 < utf8Len el) then
        some (joinSpace ngram, l.2.1, MatchType.NGram)
      else none))

/-- `SearchTree::generate_abbreviations` from `src/tree.rs`: for every line
with more than one space-separated part, abbreviate the FIRST part to its
first character and join the result back with spaces, as an `Abbreviated`
line.  An empty first part makes the source panic on
`chars().next().unwrap()`; modelled as producing nothing. -/
def generate_abbreviations (lines : List (Str × Str × MatchType)) :
    List (Str × Str × MatchType) :=
  (lines.filter (fun l => 1 < (l.1.splitOn ' ').length)).flatMap (fun l =>
    match l.1.splitOn ' ' with
    | [] => []
    | head :: tail =>
      match head with
      | [] => []
      | c :: _ => [(joinSpace ([c] :: tail), l.2.1, MatchType.Abbreviated)])

/-- Rust's `as usize` cast of an `i32` value: sign-extension reinterpreted as
an unsigned 64-bit value. -/
def usizeOfI32 (i : Int) : Nat := (i % (2 ^ 64 : Int)).toNat

/-- The `deleted` vector built by one level of `create_skip_grams`: for every
item, every deletion of the token at one position `i` in `1 ..= len - 1`
(`d = item[..i] ++ item[i+1..]`), in loop order. -/
def itemsDeleted (items : List (List Str)) : List (List Str) :=
  items.flatMap (fun item =>
    (List.range' 1 (item.length - 1)).map (fun i => item.take i ++ item.drop (i + 1)))

/-- Recursion core of `create_skip_grams`: the source recurses with
`max_skips - 1` under the guard `max_skips > 0`, so the recursion depth is
exactly `max_skips.toNat`, made structural here as fuel. -/
def createSkipGramsGo : Nat → List (List Str) → Int → List (List Str)
  | 0, items, _ => items
  | Nat.succ n, items, min_length =>
    if items.all (fun item => usizeOfI32 min_length < item.length) then
      itemsDeleted items ++ createSkipGramsGo n (itemsDeleted items) min_length
    else items

/-- `create_skip_grams` from `src/util.rs` (no caller in the repository):
while `max_skips > 0` and every item is longer than `min_length as usize`,
collect for every item every deletion of one token at positions `1 ..= len-1`,
then recurse on the deletions with one skip fewer, appending the recursive
result. -/
def create_skip_grams (items : List (List Str)) (max_skips min_length : Int) :
    List (List Str) :=
  createSkipGramsGo max_skips.toNat items min_length

/-- `CorpusFormat` from `src/util.rs` (all-optional descriptor). -/
structure CorpusFormat where
  comment : Option Str := none
  delimiter : Option Str := none
  double_quote : Option Bool := none
  flexible : Option Bool := none
  has_header : Option Bool := none
  quote : Option Str := none
  quoting : Option Bool := none
  skip_lines : Option Nat := none
  search_term_column_idx : Option Nat := none
  label_column_idx : Option Nat := none
  label_format_string : Option Str := none
  label_format_pattern : Option Str := none

/-- `RobustCorpusFormat` from `src/util.rs` (defaults applied). -/
structure RobustCorpusFormat where
  comment : Option Char
  delimiter : Char
  double_quote : Bool
  flexible : Bool
  has_header : Bool
  quote : Char
  quoting : Bool
  skip_lines : Nat
  search_term_column_idx : Nat
  label_column_idx : Nat
  label_format_string : Option Str
  label_format_pattern : Str

/-- The configuration errors raised by `RobustCorpusFormat::try_from`:
`context("Could not get delimiter character")`,
`context("Could not get quote character")`, and
`anyhow!("The label format string must contain the label format pattern")`. -/
inductive ConfigError where
  | noDelimiter
  | noQuote
  | labelFormatMismatch
deriving DecidableEq

/-- The left brace character (the default label pattern is the two-character
string brace-brace). -/
def lbrace : Char := Char.ofNat 123

/-- The right brace character. -/
def rbrace : Char := Char.ofNat 125

/-- Rust `str::contains` with a string pattern: substring containment. -/
def strContains (hay pat : Str) : Bool :=
  (List.range (hay.length + 1)).any (fun i => pat.isPrefixOf (hay.drop i))

/-- `Option<String>.map_or(Some(default_byte), |s| s.bytes().next())`:
the first byte of the given string (none when it is empty), or the default
when no string is given.  First bytes are modelled as first characters
(exact for the ASCII descriptors in use). -/
def firstByteOr (o : Option Str) (dflt : Char) : Option Char :=
  match o with
  | none => some dflt
  | some s => s.head?

/-- `RobustCorpusFormat::try_from` from `src/util.rs`: resolve the delimiter
and quote bytes (erroring when a given string is empty), apply the remaining
defaults (note the source uses `quoting.unwrap_or(false)`), then reject a
`label_format_string` that does not contain the `label_format_pattern`. -/
def RobustCorpusFormat.tryFrom (format : CorpusFormat) :
    Except ConfigError RobustCorpusFormat :=
  match firstByteOr format.delimiter '\t' with
  | none => Except.error ConfigError.noDelimiter
  | some delimiter =>
    match firstByteOr format.quote '\"' with
    | none => Except.error ConfigError.noQuote
    | some quote =>
      let r : RobustCorpusFormat :=
        { comment := match format.comment with
            | none => some '#'
            | some s => s.head?
          delimiter := delimiter
          double_quote := format.double_quote.getD false
          flexible := format.flexible.getD false
          has_header := format.has_header.getD false
          quote := quote
          quoting := format.quoting.getD false
          skip_lines := format.skip_lines.getD 0
          search_term_column_idx := format.search_term_column_idx.getD 0
          label_column_idx := format.label_column_idx.getD 1
          label_format_string := format.label_format_string
          label_format_pattern := format.label_format_pattern.getD [lbrace, rbrace] }
      match r.label_format_string with
      | some lfs =>
        if strContains lfs r.label_format_pattern then Except.ok r
        else Except.error ConfigError.labelFormatMismatch
      | none => Except.ok r

/-- Observation of the tree: the match set stored at the node reached by a
(lowercased) key path; `[]` when the path does not exist.  The observable
content of the index is exactly the family of these sets. -/
def matchSetAt (t : HashMapSearchTree) : List Str → List Match
  | [] => t.matchSet
  | k :: rest =>
    match getChild t.children k with
    | some c => matchSetAt c rest
    | none => []

/-- Follows the words of the spec (§4.C.1) and is compared against the
source's `generate_abbreviations`: for each entry with more than one token,
for each index `i` up to `min(len-1, abbrv_max_index)` (all of them when
`abbrv_max_index` is negative), skipping indices whose trailing character
count falls below a positive `abbrv_min_suffix_length`, replace token `i` by
its first character. -/
def specAbbreviationVariants (abbrvMaxIndex abbrvMinSuffixLength : Int)
    (lines : List (Str × Str × MatchType)) : List (Str × Str × MatchType) :=
  lines.flatMap (fun l =>
    let toks := (split_with_indices l.1).1
    if toks.length ≤ 1 then []
    else
      let maxI : Nat :=
        if abbrvMaxIndex < 0 then toks.length - 1
        else min (toks.length - 1) abbrvMaxIndex.toNat
      (List.range (maxI + 1)).filterMap (fun i =>
        let suffixLen := ((toks.drop (i + 1)).map List.length).sum
        if 0 < abbrvMinSuffixLength ∧ suffixLen < abbrvMinSuffixLength.toNat then none
        else
          match toks.getD i [] with
          | [] => none
          | c :: _ =>
            some (joinSpace (toks.take i ++ [[c]] ++ toks.drop (i + 1)), l.2.1,
              MatchType.Abbreviated)))

/-! Concrete instances used by the per-claim counterexamples and witnesses. -/

def c1Entry : Str := strL "aa bb cc dd ee ff"

def c1Tree : HashMapSearchTree :=
  HashMapSearchTree.load_lines HashMapSearchTree.default [(c1Entry, strL "u", MatchType.Full)]

def c2Tree : HashMapSearchTree :=
  (HashMapSearchTree.default.insert [strL "an", strL "example"] (strL "an example")
      (strL "u") MatchType.Full).insert [strL "an", strL "example"] (strL "an example")
      (strL "u2") MatchType.NGram

def c2Results : List (List Str × List Match) :=
  [([strL "an", strL "example"],
    [Match.full (strL "an example") (strL "u"),
     ⟨MatchType.NGram, strL "an example", strL "u2"⟩])]

def c4Tree : HashMapSearchTree :=
  HashMapSearchTree.load_lines HashMapSearchTree.default [(strL "ab", strL "u", MatchType.Full)]

def c6Lines : List (Str × Str × MatchType) := [(strL "aaa bbb ccc", strL "u", MatchType.Full)]

def c6Items : List (List Str) := [[strL "aa", strL "bb", strL "cc"]]

def c7Lines : List (Str × Str × MatchType) := [(strL "aa bb cc", strL "u", MatchType.Full)]

def c8Once : HashMapSearchTree :=
  HashMapSearchTree.default.insert [strL "ex"] (strL "ex") (strL "u") MatchType.NGram

def c8Twice : HashMapSearchTree :=
  c8Once.insert [strL "ex"] (strL "ex") (strL "u") MatchType.NGram

def c9Fmt : CorpusFormat := { label_format_string := some (strL "abc") }

/-!
## Theorems
-/

/-- C1 (counterexample): the omitted parameters do NOT default to
`tree_depth` / `LastPreferFull`.  `c1Tree` stores exactly one key, of token
length 6, so the length of the longest inserted key is 6; yet the default
search over exactly that entry's text finds nothing, while the same search
with `max_len = 6` does.  (`LastPreferFull` does not exist in the source at
all; the default policy is `Longest`.) -/
theorem C1_counterexample :
    (split_with_indices c1Entry).1.length = 6 ∧
    c1Tree.search c1Entry none none = some [] ∧
    c1Tree.search c1Entry (some 6) none ≠ some [] := by
  refine ⟨by decide, by decide, by decide⟩

/-- C1 (amended): with `max_len` and `result_selection` omitted, `search`
behaves exactly as with `max_len = 5` and `result_selection = Longest` —
the source's hard-coded defaults. -/
theorem C1_default_parameters (t : HashMapSearchTree) (text : Str) :
    t.search text none none = t.search text (some 5) (some ResultSelection.Longest) := rfl

/-- C3 (code bug, evaluation at the failing input): inserting a single-token
entry with match type `NGram` into the empty index stores a match whose
match type is `Full` (and no `NGram` match at all): the fresh-key path of
`HashMapSearchTree::insert` calls `HashMapSearchTree::from`, which hardcodes
`Match::full` and ignores the `match_type` argument. -/
theorem C3_insert_discards_match_type :
    matchSetAt (HashMapSearchTree.default.insert [strL "example"] (strL "example")
        (strL "u") MatchType.NGram) [strL "example"]
      = [Match.full (strL "example") (strL "u")] ∧
    (⟨MatchType.NGram, strL "example", strL "u"⟩ : Match)
      ∉ matchSetAt (HashMapSearchTree.default.insert [strL "example"] (strL "example")
        (strL "u") MatchType.NGram) [strL "example"] := by
  refine ⟨by decide, by decide⟩

/-- C4 (code bug, evaluation at the failing input): searching the text
`"ab"` (2 bytes, 2 characters) against an index containing the entry `"ab"`
emits a span with `end = 3`, exceeding the length of the input: `_push_slice`
records the offset pair `(last, idx + 1)`, one past the token's true end, so
`text[start..end]` is not a valid slice and cannot equal the matched text. -/
theorem C4_span_end_out_of_bounds :
    c4Tree.search (strL "ab") none none
      = some [⟨strL "ab", [Match.full (strL "ab") (strL "u")], 0, 3⟩] ∧
    utf8Len (strL "ab") = 2 ∧ (strL "ab").length = 2 := by
  refine ⟨by decide, by decide, by decide⟩

/-- `_push_slice` either pushes onto both lists or onto neither, so it
preserves equality of their lengths. -/
theorem push_slice_length {slices : List Str} {offsets : List (Nat × Nat)}
    {slice : Str} {last idx : Nat} (h : slices.length = offsets.length) :
    (_push_slice slices offsets slice last idx).1.length
      = (_push_slice slices offsets slice last idx).2.length := by
  unfold _push_slice
  split <;> simp [h]

/-- A slice pushed by `_push_slice` satisfies the guard, whose both branches
force a positive byte length, so no pushed slice is empty. -/
theorem push_slice_ne_nil {slices : List Str} {offsets : List (Nat × Nat)}
    {slice : Str} {last idx : Nat} (h : ∀ t ∈ slices, t ≠ []) :
    ∀ t ∈ (_push_slice slices offsets slice last idx).1, t ≠ [] := by
  unfold _push_slice
  split
  · intro t ht
    rcases List.mem_append.mp ht with h1 | h1
    · exact h t h1
    · have ht' : t = slice := by simpa using h1
      subst ht'
      rename_i hguard
      intro hnil
      subst hnil
      simp [utf8Len] at hguard
  · exact h

/-- Joint invariant of the `split_with_indices` walker: accumulated slices
and offsets stay equal in number, and accumulated slices stay non-empty. -/
theorem swiAux_invariant (s : List Char) :
    ∀ (acc : List Str × List (Nat × Nat)) (pend : Str) (last pos : Nat),
      acc.1.length = acc.2.length → (∀ t ∈ acc.1, t ≠ []) →
      (swiAux acc pend last pos s).1.length = (swiAux acc pend last pos s).2.length ∧
        ∀ t ∈ (swiAux acc pend last pos s).1, t ≠ [] := by
  induction s with
  | nil =>
    intro acc pend last pos h1 h2
    simp only [swiAux]
    split
    · exact ⟨push_slice_length h1, push_slice_ne_nil h2⟩
    · exact ⟨h1, h2⟩
  | cons c rest ih =>
    intro acc pend last pos h1 h2
    simp only [swiAux]
    split
    · exact ih _ _ _ _ (push_slice_length h1) (push_slice_ne_nil h2)
    · exact ih _ _ _ _ h1 h2

/-- The two components of `split_with_indices` always have the same length. -/
theorem split_with_indices_lengths (s : Str) :
    (split_with_indices s).1.length = (split_with_indices s).2.length :=
  (swiAux_invariant s ([], []) [] 0 0 rfl (by simp)).1

/-- Every token returned by `split_with_indices` is a non-empty string. -/
theorem split_with_indices_tokens_ne_nil (s : Str) :
    ∀ t ∈ (split_with_indices s).1, t ≠ [] :=
  (swiAux_invariant s ([], []) [] 0 0 rfl (by simp)).2

/-- C10: for every input string, the tokenization used on both the build path
(`load_lines`) and the query path (`search`) — namely `split_with_indices` —
returns one offset pair per token, and every returned token is a non-empty
string. -/
theorem C10_tokenization_invariants (s : Str) :
    (split_with_indices s).1.length = (split_with_indices s).2.length ∧
      (split_with_indices s).1.all (fun t => !t.isEmpty) = true := by
  refine ⟨split_with_indices_lengths s, ?_⟩
  rw [List.all_eq_true]
  intro t ht
  have := split_with_indices_tokens_ne_nil s t ht
  simpa using this

/-- C5 (counterexample): with a supplied `max_len` of `0`, `search` does not
return the empty list: the window width `0` is rejected by the window
iterator at run time (`window_size - 1` underflows; a panic under overflow
checks), modelled as the failure value `none`. -/
theorem C5_zero_window_counterexample :
    HashMapSearchTree.default.search (strL "a") (some 0) none ≠ some [] := by
  decide

/-- C5 (amended): for every positive window width, a text whose tokenization
is empty makes `search` return the empty list, for any index whose root has
no empty-string child (every reachable index, since all inserted tokens are
non-empty by `split_with_indices_tokens_ne_nil`). -/
theorem C5_empty_tokenization (t : HashMapSearchTree) (text : Str) (W : Nat)
    (sel : Option ResultSelection) (hW : W ≠ 0)
    (htok : (split_with_indices text).1 = [])
    (hroot : getChild t.children [] = none) :
    t.search text (some W) sel = some [] := by
  have hoff : (split_with_indices text).2 = [] := by
    have h := split_with_indices_lengths text
    rw [htok] at h
    exact List.eq_nil_of_length_eq_zero h.symm
  obtain ⟨k, rfl⟩ : ∃ k, W = k + 1 := ⟨W - 1, by omega⟩
  simp only [HashMapSearchTree.search, htok, hoff, List.nil_append, Option.getD_some]
  rw [if_neg hW]
  simp [List.length_replicate, Nat.sub_self, List.range_succ, List.range_zero,
    HashMapSearchTree.traverse, List.replicate_succ, HashMapSearchTree.traverse_internal,
    toLowerStr, hroot, dedupByEnd]

/-- C5 (witness): the amended theorem at a concrete input — a text made of
split characters only, window width 1, the empty index. -/
theorem C5_witness :
    HashMapSearchTree.default.search (strL " . ") (some 1) none = some [] :=
  C5_empty_tokenization HashMapSearchTree.default (strL " . ") 1 none (by decide)
    (by decide) rfl

/-- Replacing the child found at a key leaves the lookup at that key pointing
to the replacement. -/
theorem getChild_setChild {cs : List (Str × HashMapSearchTree)} {k : Str}
    {c0 : HashMapSearchTree} (h : getChild cs k = some c0) (c : HashMapSearchTree) :
    getChild (setChild cs k c) k = some c := by
  induction cs with
  | nil => simp [getChild] at h
  | cons p rest ih =>
    obtain ⟨k1, c1⟩ := p
    by_cases hk : k1 = k
    · subst hk
      simp [getChild, setChild]
    · simp only [getChild, setChild, if_neg hk] at h ⊢
      exact ih h

/-- Two successive replacements at the same key collapse to the second. -/
theorem setChild_setChild (cs : List (Str × HashMapSearchTree)) (k : Str)
    (c c' : HashMapSearchTree) :
    setChild (setChild cs k c) k c' = setChild cs k c' := by
  induction cs with
  | nil => simp [setChild]
  | cons p rest ih =>
    obtain ⟨k1, c1⟩ := p
    by_cases hk : k1 = k
    · subst hk
      simp [setChild]
    · simp only [setChild, if_neg hk, List.cons.injEq, true_and]
      exact ih

/-- Replacing the child at a key by the child already stored there is the
identity. -/
theorem setChild_self {cs : List (Str × HashMapSearchTree)} {k : Str}
    {c : HashMapSearchTree} (h : getChild cs k = some c) :
    setChild cs k c = cs := by
  induction cs with
  | nil => simp [getChild] at h
  | cons p rest ih =>
    obtain ⟨k1, c1⟩ := p
    by_cases hk : k1 = k
    · subst hk
      have hc : c1 = c := by simpa [getChild] using h
      subst hc
      simp [setChild]
    · simp only [getChild, if_neg hk] at h
      simp only [setChild, if_neg hk, List.cons.injEq, true_and]
      exact ih h

/-- Appending a binding for an absent key makes lookup find it. -/
theorem getChild_append_of_none {cs : List (Str × HashMapSearchTree)} {k : Str}
    (h : getChild cs k = none) (c : HashMapSearchTree) :
    getChild (cs ++ [(k, c)]) k = some c := by
  induction cs with
  | nil => simp [getChild]
  | cons p rest ih =>
    obtain ⟨k1, c1⟩ := p
    by_cases hk : k1 = k
    · subst hk
      simp [getChild] at h
    · simp only [getChild, if_neg hk] at h
      simp only [List.cons_append, getChild, if_neg hk]
      exact ih h

/-- Inserting an element already present in a set is a no-op. -/
theorem hsInsert_of_mem {s : List Match} {m : Match} (h : m ∈ s) :
    hsInsert s m = s := by
  simp [hsInsert, h]

/-- The inserted element is a member of the resulting set. -/
theorem mem_hsInsert_self (s : List Match) (m : Match) : m ∈ hsInsert s m := by
  by_cases h : m ∈ s
  · simp [hsInsert, h]
  · simp [hsInsert, h]


/-- Reduction of `insert` on an existing child at the last token. -/
theorem insert_some_nil {tc : List (Str × HashMapSearchTree)} {v : Str}
    {child : HashMapSearchTree} (tm : List Match) (ms mu : Str) (mt : MatchType)
    (hg : getChild tc (toLowerStr v) = some child) :
    (HashMapSearchTree.mk tm tc).insert [v] ms mu mt
      = HashMapSearchTree.mk tm (setChild tc (toLowerStr v)
          (HashMapSearchTree.mk
            (hsInsert child.matchSet
              { match_type := mt, match_string := ms, match_uri := mu })
            child.children)) := by
  simp [HashMapSearchTree.insert, HashMapSearchTree.children, HashMapSearchTree.matchSet, hg]

/-- Reduction of `insert` on an existing child with tokens remaining. -/
theorem insert_some_cons {tc : List (Str × HashMapSearchTree)} {v : Str} {rest : List Str}
    {child : HashMapSearchTree} (tm : List Match) (ms mu : Str) (mt : MatchType)
    (hg : getChild tc (toLowerStr v) = some child) (hrest : rest ≠ []) :
    (HashMapSearchTree.mk tm tc).insert (v :: rest) ms mu mt
      = HashMapSearchTree.mk tm (setChild tc (toLowerStr v)
          (child.insert rest ms mu mt)) := by
  simp [HashMapSearchTree.insert, HashMapSearchTree.children, HashMapSearchTree.matchSet,
    hg, hrest]

/-- Reduction of `insert` on an absent key at the last token: the stored node
is `from'`, whose match carries type `Full` whatever `mt` is. -/
theorem insert_none_nil {tc : List (Str × HashMapSearchTree)} {v : Str}
    (tm : List Match) (ms mu : Str) (mt : MatchType)
    (hg : getChild tc (toLowerStr v) = none) :
    (HashMapSearchTree.mk tm tc).insert [v] ms mu mt
      = HashMapSearchTree.mk tm (tc ++ [(toLowerStr v, HashMapSearchTree.from' ms mu)]) := by
  simp [HashMapSearchTree.insert, HashMapSearchTree.children, HashMapSearchTree.matchSet, hg]

/-- Reduction of `insert` on an absent key with tokens remaining. -/
theorem insert_none_cons {tc : List (Str × HashMapSearchTree)} {v : Str} {rest : List Str}
    (tm : List Match) (ms mu : Str) (mt : MatchType)
    (hg : getChild tc (toLowerStr v) = none) (hrest : rest ≠ []) :
    (HashMapSearchTree.mk tm tc).insert (v :: rest) ms mu mt
      = HashMapSearchTree.mk tm (tc ++
          [(toLowerStr v, HashMapSearchTree.default.insert rest ms mu mt)]) := by
  simp [HashMapSearchTree.insert, HashMapSearchTree.children, HashMapSearchTree.matchSet,
    hg, hrest]

/-- Repeating an insertion with match type `Full` is the identity on the
index: after the first insertion the path exists, and the leaf set already
contains the (structurally equal) `Full` match, so `HashSet::insert` and the
child replacement are no-ops. -/
theorem insert_full_idem (values : List Str) :
    ∀ (t : HashMapSearchTree) (ms mu : Str), values ≠ [] →
      (t.insert values ms mu MatchType.Full).insert values ms mu MatchType.Full
        = t.insert values ms mu MatchType.Full := by
  induction values with
  | nil => intro t ms mu h; exact absurd rfl h
  | cons v rest ih =>
    intro t ms mu _
    obtain ⟨tm, tc⟩ := t
    have hch : (HashMapSearchTree.mk tm tc).children = tc := rfl
    rcases hg : getChild tc (toLowerStr v) with _ | child
    · by_cases hrest : rest = []
      · subst hrest
        rw [insert_none_nil tm ms mu MatchType.Full hg]
        have h2 := getChild_append_of_none hg (HashMapSearchTree.from' ms mu)
        rw [insert_some_nil tm ms mu MatchType.Full h2]
        have h3 : HashMapSearchTree.mk
            (hsInsert (HashMapSearchTree.from' ms mu).matchSet
              { match_type := MatchType.Full, match_string := ms, match_uri := mu })
            (HashMapSearchTree.from' ms mu).children = HashMapSearchTree.from' ms mu := by
          simp [HashMapSearchTree.from', HashMapSearchTree.matchSet,
            HashMapSearchTree.children, hsInsert, Match.full]
        rw [h3, setChild_self h2]
      · rw [insert_none_cons tm ms mu MatchType.Full hg hrest]
        have h2 := getChild_append_of_none hg
          (HashMapSearchTree.default.insert rest ms mu MatchType.Full)
        rw [insert_some_cons tm ms mu MatchType.Full h2 hrest]
        rw [ih _ ms mu hrest, setChild_self h2]
    · by_cases hrest : rest = []
      · subst hrest
        rw [insert_some_nil tm ms mu MatchType.Full hg]
        have h2 := getChild_setChild hg (HashMapSearchTree.mk
          (hsInsert child.matchSet
            { match_type := MatchType.Full, match_string := ms, match_uri := mu })
          child.children)
        rw [insert_some_nil tm ms mu MatchType.Full h2]
        have h3 : hsInsert
            (HashMapSearchTree.mk
              (hsInsert child.matchSet
                { match_type := MatchType.Full, match_string := ms, match_uri := mu })
              child.children).matchSet
            { match_type := MatchType.Full, match_string := ms, match_uri := mu }
            = hsInsert child.matchSet
                { match_type := MatchType.Full, match_string := ms, match_uri := mu } := by
          exact hsInsert_of_mem (mem_hsInsert_self child.matchSet _)
        rw [h3, setChild_setChild]
        rfl
      · rw [insert_some_cons tm ms mu MatchType.Full hg hrest]
        have h2 := getChild_setChild hg (child.insert rest ms mu MatchType.Full)
        rw [insert_some_cons tm ms mu MatchType.Full h2 hrest]
        rw [ih _ ms mu hrest, setChild_setChild]

/-- C8 (counterexample): inserting the same tuple
`(["ex"], "ex", "u", NGram)` twice is observably different from inserting it
once: the first insertion stores a `Full`-typed match (via
`HashMapSearchTree::from`), so the second adds a distinct `NGram`-typed
match to the set. -/
theorem C8_counterexample :
    matchSetAt c8Twice [strL "ex"] ≠ matchSetAt c8Once [strL "ex"] ∧
    matchSetAt c8Once [strL "ex"] = [Match.full (strL "ex") (strL "u")] ∧
    matchSetAt c8Twice [strL "ex"]
      = [Match.full (strL "ex") (strL "u"), ⟨MatchType.NGram, strL "ex", strL "u"⟩] := by
  refine ⟨by decide, by decide, by decide⟩

/-- C8 (amended): insertion is idempotent for `Full` inserts with non-empty
tokens — performing the same `Full` insert twice in succession yields an
index equal to performing it once, from every starting state.  (For
`Abbreviated`/`NGram` inserts this fails when the first insert creates the
key, because the created node stores a `Full` match instead.) -/
theorem C8_full_insert_idempotent (t : HashMapSearchTree) (values : List Str)
    (ms mu : Str) (h : values ≠ []) :
    (t.insert values ms mu MatchType.Full).insert values ms mu MatchType.Full
      = t.insert values ms mu MatchType.Full :=
  insert_full_idem values t ms mu h

/-- C8 (witness): the amended theorem applied at a concrete insertion. -/
theorem C8_witness :
    (HashMapSearchTree.default.insert [strL "a"] (strL "a") (strL "u")
        MatchType.Full).insert [strL "a"] (strL "a") (strL "u") MatchType.Full
      = HashMapSearchTree.default.insert [strL "a"] (strL "a") (strL "u") MatchType.Full :=
  C8_full_insert_idempotent HashMapSearchTree.default [strL "a"] (strL "a") (strL "u")
    (by decide)

/-- The default of `getLastD` is irrelevant on a non-empty list: the result
is the last element, hence a member. -/
theorem getLastD_mem {α : Type} (l : List α) (d : α) (h : l ≠ []) :
    l.getLastD d ∈ l := by
  induction l generalizing d with
  | nil => exact absurd rfl h
  | cons a rest ih =>
    rw [List.getLastD_cons]
    cases rest with
    | nil => simp [List.getLastD]
    | cons b rs => exact List.mem_cons_of_mem a (ih a (by simp))

/-- The `Longest` fold of the source either keeps its seed or returns a list
element, and its prefix length dominates the seed's and every element's (the
fold keeps the first candidate of strictly maximal prefix length). -/
theorem foldl_longest_spec (l : List (List Str × List Match))
    (a : List Str × List Match) :
    (l.foldl (fun acc c => if acc.1.length < c.1.length then c else acc) a = a ∨
      l.foldl (fun acc c => if acc.1.length < c.1.length then c else acc) a ∈ l) ∧
    a.1.length ≤
      (l.foldl (fun acc c => if acc.1.length < c.1.length then c else acc) a).1.length ∧
    ∀ r ∈ l, r.1.length ≤
      (l.foldl (fun acc c => if acc.1.length < c.1.length then c else acc) a).1.length := by
  induction l generalizing a with
  | nil => exact ⟨Or.inl rfl, Nat.le_refl _, by simp⟩
  | cons x xs ih =>
    rw [List.foldl_cons]
    obtain ⟨hmem, hseed, hall⟩ := ih (if a.1.length < x.1.length then x else a)
    refine ⟨?_, ?_, ?_⟩
    · rcases hmem with h | h
      · rw [h]
        by_cases hx : a.1.length < x.1.length
        · rw [if_pos hx]
          exact Or.inr (List.mem_cons_self x xs)
        · rw [if_neg hx]
          exact Or.inl rfl
      · exact Or.inr (List.mem_cons_of_mem x h)
    · refine Nat.le_trans ?_ hseed
      by_cases hx : a.1.length < x.1.length
      · rw [if_pos hx]
        omega
      · rw [if_neg hx]
    · intro r hr
      rcases List.mem_cons.mp hr with rfl | hr
      · refine Nat.le_trans ?_ hseed
        by_cases hx : a.1.length < r.1.length
        · rw [if_pos hx]
        · rw [if_neg hx]
          omega
      · exact hall r hr

/-- C2 (counterexample): there is no `LastPreferFull` policy in the source
(`ResultSelection` is `All | Last | Longest`), and the default (`Longest`)
selection does not restrict the emitted match set to `Full` matches: with
both a `Full` and an `NGram` match stored at the key `["an", "example"]`,
the emitted span carries both matches, although the spec requires exactly
the `Full` subset. -/
theorem C2_counterexample :
    c2Tree.search (strL "an example") none none
      = some [⟨strL "an example",
          [Match.full (strL "an example") (strL "u"),
           ⟨MatchType.NGram, strL "an example", strL "u2"⟩], 0, 11⟩] ∧
    (⟨MatchType.NGram, strL "an example", strL "u2"⟩ : Match).match_type ≠ MatchType.Full := by
  refine ⟨by decide, by decide⟩

/-- C2 (amended): for every policy (`All`, `Last`, `Longest`), every span
emitted for a window carries the ENTIRE match set of one of the window's
candidates, unchanged — no restriction to `Full` matches ever happens — and
under `Longest` the selected candidate is a longest-prefix one: its matched
prefix length dominates every candidate of the window.  The hypothesis that
candidates have non-empty matched prefixes holds for every candidate
produced by `traverse`. -/
theorem C2_selected_span_carries_whole_match_set (sel : ResultSelection)
    (results : List (List Str × List Match)) (os : List (Nat × Nat)) (start : Nat)
    (sp : Span) (hne : results ≠ []) (hpre : ∀ r ∈ results, r.1 ≠ [])
    (hsp : sp ∈ selectResults sel results os start) :
    ∃ c, c ∈ results ∧ sp.matchSet = c.2 ∧ sp.string = joinSpace c.1 ∧
      (sel = ResultSelection.Longest → ∀ r ∈ results, r.1.length ≤ c.1.length) := by
  cases sel with
  | All =>
    simp only [selectResults] at hsp
    obtain ⟨r, hr, rfl⟩ := List.mem_map.mp hsp
    exact ⟨r, hr, rfl, rfl, fun h => nomatch h⟩
  | Last =>
    simp only [selectResults, List.mem_singleton] at hsp
    subst hsp
    exact ⟨results.getLastD ([], []), getLastD_mem results ([], []) hne, rfl, rfl,
      fun h => nomatch h⟩
  | Longest =>
    simp only [selectResults, List.mem_singleton] at hsp
    subst hsp
    cases results with
    | nil => exact absurd rfl hne
    | cons r0 rs =>
      have h0 : r0.1 ≠ [] := hpre r0 (List.mem_cons_self r0 rs)
      have hlt : (([], []) : List Str × List Match).1.length < r0.1.length := by
        simpa [List.length_pos] using h0
      have hstep : (if (([], []) : List Str × List Match).1.length < r0.1.length
          then r0 else ([], [])) = r0 := if_pos hlt
      rw [List.foldl_cons]
      simp only [hstep]
      obtain ⟨hmem, hseed, hall⟩ := foldl_longest_spec rs r0
      have hmax : ∀ r ∈ r0 :: rs, r.1.length ≤
          (rs.foldl (fun acc c => if acc.1.length < c.1.length then c else acc)
            r0).1.length := by
        intro r hr
        rcases List.mem_cons.mp hr with rfl | hr
        · exact hseed
        · exact hall r hr
      have hc : (rs.foldl (fun acc c => if acc.1.length < c.1.length then c else acc) r0)
          ∈ r0 :: rs := by
        rcases hmem with h | h
        · rw [h]
          exact List.mem_cons_self r0 rs
        · exact List.mem_cons_of_mem r0 h
      exact ⟨_, hc, rfl, rfl, fun _ => hmax⟩

/-- C2 (witness): the amended theorem at the concrete candidate list of the
counterexample's window, under the `Longest` policy. -/
theorem C2_witness :
    ∃ c, c ∈ c2Results ∧
      (Span.mk (strL "an example")
        [Match.full (strL "an example") (strL "u"),
         ⟨MatchType.NGram, strL "an example", strL "u2"⟩] 0 11).matchSet = c.2 ∧
      (Span.mk (strL "an example")
        [Match.full (strL "an example") (strL "u"),
         ⟨MatchType.NGram, strL "an example", strL "u2"⟩] 0 11).string = joinSpace c.1 ∧
      (ResultSelection.Longest = ResultSelection.Longest →
        ∀ r ∈ c2Results, r.1.length ≤ c.1.length) :=
  C2_selected_span_carries_whole_match_set ResultSelection.Longest c2Results
    [(0, 3), (3, 11)] 0 _ (by decide) (by decide) (by decide)

/-- C7 (counterexample): abbreviation generation does not produce a variant
for every index `i` — for the three-token entry `"aa bb cc"` the source emits
exactly one variant, abbreviating token 0 only, while the spec's rule (with
`abbrv_max_index` negative, i.e. no limit, and no suffix guard) also demands
the interior-token variant `"aa b cc"`.  The configuration parameters
`abbrv_max_index` / `abbrv_min_suffix_length` do not exist in the source. -/
theorem C7_counterexample :
    generate_abbreviations c7Lines = [(strL "a bb cc", strL "u", MatchType.Abbreviated)] ∧
    (strL "aa b cc", strL "u", MatchType.Abbreviated) ∈ specAbbreviationVariants (-1) 0 c7Lines ∧
    (strL "aa b cc", strL "u", MatchType.Abbreviated) ∉ generate_abbreviations c7Lines := by
  refine ⟨by decide, by decide, by decide⟩

/-- C7 (amended): a variant is produced exactly for the entries with more
than one space-separated part, one variant per entry: the first part is
replaced by its first character and the result is re-joined with spaces and
marked `Abbreviated`.  No other index is ever abbreviated and no
configuration bounds exist. -/
theorem C7_abbreviation_head_token_only (lines : List (Str × Str × MatchType))
    (v : Str × Str × MatchType) :
    v ∈ generate_abbreviations lines ↔
      ∃ l, l ∈ lines ∧ ∃ c t0 rest, l.1.splitOn ' ' = (c :: t0) :: rest ∧ rest ≠ [] ∧
        v = (joinSpace ([c] :: rest), l.2.1, MatchType.Abbreviated) := by
  unfold generate_abbreviations
  rw [List.mem_flatMap]
  constructor
  · rintro ⟨l, hl, hv⟩
    rw [List.mem_filter] at hl
    obtain ⟨hmem, hlen⟩ := hl
    rcases hsp : l.1.splitOn ' ' with _ | ⟨head, tail⟩
    · rw [hsp] at hv
      simp at hv
    · rcases hhead : head with _ | ⟨c, t0⟩
      · rw [hsp, hhead] at hv
        simp at hv
      · rw [hsp, hhead] at hv
        simp only [List.mem_singleton] at hv
        refine ⟨l, hmem, c, t0, tail, by rw [hsp, hhead], ?_, hv⟩
        rw [hsp] at hlen
        simp only [decide_eq_true_eq, List.length_cons] at hlen
        intro hnil
        rw [hnil] at hlen
        simp at hlen
  · rintro ⟨l, hl, c, t0, rest, hsp, hrest, hv⟩
    refine ⟨l, ?_, ?_⟩
    · rw [List.mem_filter]
      refine ⟨hl, ?_⟩
      rw [hsp]
      simp only [decide_eq_true_eq, List.length_cons]
      have : 0 < rest.length := List.length_pos.mpr hrest
      omega
    · rw [hsp]
      simp [hv]

/-- Deleting the token at a position `i ≥ 1` yields a strict sublist of one
fewer token that keeps the head. -/
theorem eraseOne_spec (u : List Str) (i : Nat) (h1 : 1 ≤ i) (h2 : i < u.length) :
    List.Sublist (u.take i ++ u.drop (i + 1)) u ∧
      (u.take i ++ u.drop (i + 1)).length + 1 = u.length ∧
      (u.take i ++ u.drop (i + 1)).head? = u.head? := by
  refine ⟨?_, ?_, ?_⟩
  · have hsub : List.Sublist (u.drop (i + 1)) (u.drop i) := by
      have h := List.drop_sublist 1 (u.drop i)
      rwa [List.drop_drop] at h
    have h := hsub.append_left (u.take i)
    rwa [List.take_append_drop] at h
  · simp only [List.length_append, List.length_take, List.length_drop]
    omega
  · cases u with
    | nil => simp at h2
    | cons a tl =>
      obtain ⟨j, rfl⟩ : ∃ j, i = j + 1 := ⟨i - 1, by omega⟩
      simp [List.take_succ_cons]

/-- Every element of the `deleted` vector comes from some input item by one
interior deletion: it is a sublist, one token shorter, with the same head. -/
theorem itemsDeleted_spec (items : List (List Str)) (v : List Str)
    (hv : v ∈ itemsDeleted items) :
    ∃ u, u ∈ items ∧ List.Sublist v u ∧ u.length = v.length + 1 ∧ v.head? = u.head? := by
  unfold itemsDeleted at hv
  obtain ⟨u, hu, hmap⟩ := List.mem_flatMap.mp hv
  obtain ⟨i, hi, rfl⟩ := List.mem_map.mp hmap
  rw [List.mem_range'_1] at hi
  have h1 : 1 ≤ i := hi.1
  have h2 : i < u.length := by omega
  obtain ⟨hsub, hlen, hhd⟩ := eraseOne_spec u i h1 h2
  exact ⟨u, hu, hsub, by omega, hhd⟩

/-- Invariant of the skip-gram recursion: after at most `n` levels of single
deletions, every output is a sublist of some input, at most `n` tokens
shorter, with the input's head token preserved. -/
theorem createSkipGramsGo_spec (n : Nat) :
    ∀ (items : List (List Str)) (ml : Int) (v : List Str),
      v ∈ createSkipGramsGo n items ml →
      ∃ u, u ∈ items ∧ List.Sublist v u ∧ u.length ≤ v.length + n ∧ v.head? = u.head? := by
  induction n with
  | zero =>
    intro items ml v hv
    rw [createSkipGramsGo] at hv
    exact ⟨v, hv, List.Sublist.refl v, by omega, rfl⟩
  | succ n ih =>
    intro items ml v hv
    rw [createSkipGramsGo] at hv
    split at hv
    · rcases List.mem_append.mp hv with h | h
      · obtain ⟨u, hu, hsub, hlen, hhd⟩ := itemsDeleted_spec items v h
        exact ⟨u, hu, hsub, by omega, hhd⟩
      · obtain ⟨w, hw, hsubw, hlenw, hhdw⟩ := ih (itemsDeleted items) ml v h
        obtain ⟨u, hu, hsubu, hlenu, hhdu⟩ := itemsDeleted_spec items w hw
        exact ⟨u, hu, hsubw.trans hsubu, by omega, hhdw.trans hhdu⟩
    · exact ⟨v, hv, List.Sublist.refl v, by omega, rfl⟩

/-- C6 (counterexample): the build-time variant generator is
`generate_ngrams`, which inserts padded token BIGRAMS, not bounded-deletion
skip-grams; in particular it emits the variant `"bbb ccc"` of
`"aaa bbb ccc"`, whose token sequence drops token position 0 (`"aaa"`), which
the claim forbids.  (`create_skip_grams` exists in `src/util.rs` but has no
caller, and no `skip_gram_min_length` / `skip_gram_max_skips` configuration
exists.) -/
theorem C6_counterexample :
    (joinSpace [strL "bbb", strL "ccc"], strL "u", MatchType.NGram) ∈ generate_ngrams c6Lines ∧
    (split_with_indices (strL "aaa bbb ccc")).1 = [strL "aaa", strL "bbb", strL "ccc"] ∧
    (split_with_indices (joinSpace [strL "bbb", strL "ccc"])).1 = [strL "bbb", strL "ccc"] := by
  refine ⟨by decide, by decide, by decide⟩

/-- C6 (amended): for the (uncalled) `create_skip_grams` helper the shape
bounds do hold: every produced variant is a sublist of some input item
obtained by deleting at most `max_skips.toNat` tokens, none of them at
position 0 — the head token is preserved.  (No bound `length >
skip_gram_min_length` holds for the output: deletions can reach exactly the
threshold length.) -/
theorem C6_skip_gram_shape (items : List (List Str)) (max_skips min_length : Int)
    (v : List Str) (hv : v ∈ create_skip_grams items max_skips min_length) :
    ∃ u, u ∈ items ∧ List.Sublist v u ∧ u.length ≤ v.length + max_skips.toNat ∧
      v.head? = u.head? :=
  createSkipGramsGo_spec max_skips.toNat items min_length v hv

/-- C6 (witness): the amended theorem at a concrete skip-gram computation. -/
theorem C6_witness :
    ∃ u, u ∈ c6Items ∧ List.Sublist [strL "aa", strL "cc"] u ∧
      u.length ≤ ([strL "aa", strL "cc"] : List Str).length + (1 : Int).toNat ∧
      ([strL "aa", strL "cc"] : List Str).head? = u.head? :=
  C6_skip_gram_shape c6Items 1 0 [strL "aa", strL "cc"] (by decide)

/-- C9: if `label_format_string` is set and does not contain the (defaulted)
`label_format_pattern`, `RobustCorpusFormat::try_from` fails with a
configuration error; and when it does contain it, the conversion never fails
with the label-format error (only the independent delimiter/quote resolution
can still fail). -/
theorem C9_label_format_validation (f : CorpusFormat) (s : Str)
    (h : f.label_format_string = some s) :
    (strContains s (f.label_format_pattern.getD [lbrace, rbrace]) = false →
        (RobustCorpusFormat.tryFrom f).isOk = false) ∧
    (strContains s (f.label_format_pattern.getD [lbrace, rbrace]) = true →
        RobustCorpusFormat.tryFrom f ≠ Except.error ConfigError.labelFormatMismatch) := by
  constructor
  · intro hc
    unfold RobustCorpusFormat.tryFrom
    rcases hd : firstByteOr f.delimiter '\t' with _ | d
    · rfl
    · rcases hq : firstByteOr f.quote '\"' with _ | q
      · rfl
      · simp only [h, hc]
        rfl
  · intro hc
    unfold RobustCorpusFormat.tryFrom
    rcases hd : firstByteOr f.delimiter '\t' with _ | d
    · simp
    · rcases hq : firstByteOr f.quote '\"' with _ | q
      · simp
      · simp [h, hc]

/-- C9 (witness): a descriptor whose label format string `"abc"` does not
contain the default pattern fails the conversion. -/
theorem C9_witness : (RobustCorpusFormat.tryFrom c9Fmt).isOk = false :=
  (C9_label_format_validation c9Fmt (strL "abc") rfl).1 (by decide)

/-- C7 (witness): the amended characterization instantiated at the concrete
entry `"aa bb cc"` and its single produced variant. -/
theorem C7_witness :
    ∃ l, l ∈ c7Lines ∧ ∃ c t0 rest, l.1.splitOn ' ' = (c :: t0) :: rest ∧ rest ≠ [] ∧
      ((strL "a bb cc", strL "u", MatchType.Abbreviated) : Str × Str × MatchType)
        = (joinSpace ([c] :: rest), l.2.1, MatchType.Abbreviated) :=
  (C7_abbreviation_head_token_only c7Lines
    (strL "a bb cc", strL "u", MatchType.Abbreviated)).mp (by decide)
